import Mathlib

/-!
Shallow embedding of `src/analyzer.py` (a Python source-code → embedding →
vector-store ingestion pipeline) and proofs about the claims of its
specification.

Text is modelled as `List Char`.  Machine-level details that the claims do
not touch (the actual OpenAI / Pinecone network calls) are modelled as an
oracle of per-call outcomes; everything else is translated directly from the
Python source.
-/

namespace VsAutomation

/-- Python `str.split()` whitespace (the ASCII whitespace characters Python
splits on; exotic Unicode whitespace is not modelled). -/
def pyIsWs (c : Char) : Bool :=
  c = ' ' || c = '\t' || c = '\n' || c = '\r' || c = Char.ofNat 11 || c = Char.ofNat 12

/-- State machine for `' '.join(text.split())`: `emitted` records whether a
word character has been produced already, `sawWs` whether whitespace has been
seen since the last word character.  A single `' '` separator is emitted
between words; leading and trailing whitespace produce nothing. -/
def collapseAux (emitted sawWs : Bool) : List Char → List Char
  | [] => []
  | c :: rest =>
    if pyIsWs c then collapseAux emitted true rest
    else if emitted && sawWs then ' ' :: c :: collapseAux true false rest
    else c :: collapseAux true false rest

/-- `' '.join(text.split())` — line 100 of `analyzer.py`. -/
def collapseWs (s : List Char) : List Char := collapseAux false false s

/-- Drop characters up to and including the first `'\n'`; `none` when the
list holds no newline.  (`.` in a Python regex does not match `'\n'`, so a
greedy `.*` followed by `\n` always matches exactly up to the first newline.) -/
def dropThroughNl : List Char → Option (List Char)
  | [] => none
  | c :: rest => if c = '\n' then some rest else dropThroughNl rest

/-- `re.sub(r'import.*\n', '', text)` (line 103): left-to-right scan; a match
starts at a position where the literal `import` is a prefix and extends
through the first following newline.  The fuel argument starts at the input
length, which bounds the number of scan steps (every step consumes at least
one character), so the `0` case is never reached from `subImportLine`. -/
def subImportLineF : Nat → List Char → List Char
  | 0, l => l
  | _ + 1, [] => []
  | f + 1, c :: rest =>
    if ("import".toList).isPrefixOf (c :: rest) then
      match dropThroughNl (List.drop 6 (c :: rest)) with
      | some rem => subImportLineF f rem
      | none => c :: subImportLineF f rest
    else c :: subImportLineF f rest

def subImportLine (l : List Char) : List Char := subImportLineF l.length l

/-- Python's substring test `pat in s` on character lists. -/
def subStrIn (pat : List Char) : List Char → Bool
  | [] => pat.isEmpty
  | c :: rest => pat.isPrefixOf (c :: rest) || subStrIn pat rest

/-- `re.sub(r'from.*import.*\n', '', text)` (line 104): a match starts at a
literal `from`, requires the literal `import` somewhere later on the same
line (both `.*` cannot cross a newline), and extends through the first
following newline. -/
def subFromImportLineF : Nat → List Char → List Char
  | 0, l => l
  | _ + 1, [] => []
  | f + 1, c :: rest =>
    if ("from".toList).isPrefixOf (c :: rest) then
      let after := List.drop 4 (c :: rest)
      if subStrIn ("import".toList) (after.takeWhile (· ≠ '\n')) && after.any (· = '\n') then
        match dropThroughNl after with
        | some rem => subFromImportLineF f rem
        | none => c :: subFromImportLineF f rest
      else c :: subFromImportLineF f rest
    else c :: subFromImportLineF f rest

def subFromImportLine (l : List Char) : List Char := subFromImportLineF l.length l

/-- `re.sub(r'#.*?\n', '\n', text)` (line 107): a match is a `#` through the
first following newline, replaced by a single newline. -/
def subCommentLineF : Nat → List Char → List Char
  | 0, l => l
  | _ + 1, [] => []
  | f + 1, c :: rest =>
    if c = '#' then
      match dropThroughNl rest with
      | some rem => '\n' :: subCommentLineF f rem
      | none => c :: subCommentLineF f rest
    else c :: subCommentLineF f rest

def subCommentLine (l : List Char) : List Char := subCommentLineF l.length l

/-- Python `s.rfind(c, 0, stop)`: the largest index `i < stop` with
`s[i] = c`, as an `Option` (`none` models the `-1` return). -/
def rfindIn (c : Char) : List Char → Nat → Option Nat
  | [], _ => none
  | _ :: _, 0 => none
  | x :: xs, n + 1 =>
    match rfindIn c xs n with
    | some i => some (i + 1)
    | none => if x = c then some 0 else none

/-- The truncation block of `clean_and_truncate_text` (lines 110–118):
when the text is longer than `max_length`, cut at the last `'.'` strictly
inside the first `max_length` characters, else at the last `' '` there,
else hard-cut at `max_length`.  (`text[:break_point]` excludes the boundary
character itself.) -/
def truncateBlock (t : List Char) (maxLength : Nat) : List Char :=
  if maxLength < t.length then
    match rfindIn '.' t maxLength with
    | some bp => t.take bp
    | none =>
      match rfindIn ' ' t maxLength with
      | some bp => t.take bp
      | none => t.take maxLength
  else t

/-- Python `str.strip()` (whitespace from both ends). -/
def stripChars (l : List Char) : List Char :=
  (((l.dropWhile pyIsWs).reverse.dropWhile pyIsWs).reverse)

/-- `clean_and_truncate_text(text, max_length)` — lines 97–120 of
`analyzer.py`: collapse whitespace, apply the three regex substitutions,
truncate, strip. -/
def clean_and_truncate_text (s : List Char) (maxLength : Nat) : List Char :=
  stripChars (truncateBlock (subCommentLine (subFromImportLine (subImportLine (collapseWs s)))) maxLength)

/-- Modelled from the claim's words (refinement target for the regex-free
equivalence): collapse whitespace runs to single spaces, truncate at the last
`'.'` before the limit (else last space, else hard cut) when over the limit,
then strip — with no import-line or comment-removal passes. -/
def cleanTruncateSimple (s : List Char) (maxLength : Nat) : List Char :=
  stripChars (truncateBlock (collapseWs s) maxLength)

/-- `IGNORE_PATTERNS` — lines 25–32. -/
def IGNORE_PATTERNS : List String :=
  ["__pycache__", "node_modules", "venv", ".git", "test", ".vscode"]

/-- The final path component (`pathlib.Path(p).name`); the model assumes the
path has no trailing slash, which is all the pipeline produces. -/
def pathName (p : List Char) : List Char :=
  (p.reverse.takeWhile (· ≠ '/')).reverse

/-- `pathlib.Path(p).suffix`: `name[i:]` for `i = name.rfind('.')` when
`0 < i < len(name) - 1`, else the empty string (CPython's implementation). -/
def pathSuffix (p : List Char) : List Char :=
  let name := pathName p
  match rfindIn '.' name name.length with
  | some i => if 0 < i ∧ i < name.length - 1 then name.drop i else []
  | none => []

/-- `should_analyze_file` — lines 34–43: reject any path containing one of
the ignore patterns as a substring, then require a `.py` suffix. -/
def should_analyze_file (p : String) : Bool :=
  if IGNORE_PATTERNS.any (fun pat => subStrIn pat.toList p.toList) then false
  else pathSuffix p.toList == ".py".toList

/-!  ## Syntax tree and visitor (`CodeAnalyzer.visit_*`, `process_element`) -/

/-- The parsed statements the visitor distinguishes.  `classDef` /
`functionDef` carry the result of `ast.get_docstring` (`none` when absent),
the node's 1-based `lineno`, the verbatim source segment of the definition
(which the analyzer never reads — it is part of the input, carried so that
claims about "verbatim source text" are statable), and the child statements.
`importStmt` / `importFromStmt` carry the alias names; every other statement
is `other` with its child statements (visited through `generic_visit`). -/
inductive PyNode where
  | classDef (name : String) (lineno : Nat) (docstring : Option String)
      (src : String) (body : List PyNode)
  | functionDef (name : String) (lineno : Nat) (docstring : Option String)
      (src : String) (body : List PyNode)
  | importStmt (lineno : Nat) (names : List String)
  | importFromStmt (lineno : Nat) (module : Option String) (names : List String)
  | other (children : List PyNode)

/-- A parsed module: its docstring (`ast.get_docstring` on the `Module`
node, which itself has no `lineno` attribute) and its statements. -/
structure PyModule where
  docstring : Option String
  body : List PyNode

/-- The `element_data` dictionary built by `process_element`
(lines 172–182): `id`, `content`, and the metadata fields
(`type` is called `etype` here). -/
structure Element where
  id : String
  content : String
  etype : String
  name : String
  file_path : String
  line_number : String
deriving DecidableEq, Repr

/-- Python `x or fallback` on an optional string (`None` and `""` are both
falsy). -/
def pyStrOr (x : Option String) (fallback : String) : String :=
  match x with
  | some s => if s = "" then fallback else s
  | none => fallback

/-- `str(getattr(node, 'lineno', 'unknown'))`. -/
def lineStr : Option Nat → String
  | some n => toString n
  | none => "unknown"

/-- `process_element` (lines 163–184, up to the append): drop empty content,
otherwise build the element with
`id = f"{file_path}:{lineno}:{element_type}:{safe_name}"` and the metadata
fields.  The batching part of `process_element` (lines 186–188) is modelled
separately by `feedElement`. -/
def process_element (fp : String) (etype : String) (content : String)
    (lineno : Option Nat) (name : Option String) : List Element :=
  if content = "" then []
  else
    [{ id := fp ++ ":" ++ lineStr lineno ++ ":" ++ etype ++ ":" ++ name.getD etype,
       content := content,
       etype := etype,
       name := name.getD etype,
       file_path := fp,
       line_number := lineStr lineno }]

/-- `full_name = f"{self.current_class}.{func_name}" if self.current_class
else func_name` (line 149, for a non-empty tracked class name). -/
def qualifyName (cc : Option String) (name : String) : String :=
  match cc with
  | some c => c ++ "." ++ name
  | none => name

/-- The visitor's walk over a statement list, threading the mutable
`self.current_class` (`cc`).  Mirrors `visit_ClassDef` (emit, set
`current_class := name`, `generic_visit`, reset `current_class := None`),
`visit_FunctionDef` (emit with `Class.func` qualification, `generic_visit`
without touching `current_class`), `visit_Import` / `visit_ImportFrom`
(emit one element per alias, no recursion), and `generic_visit` on all
other statements.  Returns the emitted elements in order together with the
final value of `current_class`. -/
def visitSeq (fp : String) (cc : Option String) : List PyNode → List Element × Option String
  | [] => ([], cc)
  | .classDef name ln ds _src body :: rest =>
    let e := process_element fp "class" (pyStrOr ds ("Class " ++ name)) (some ln) (some name)
    let esBody := (visitSeq fp (some name) body).1
    let r := visitSeq fp none rest
    (e ++ esBody ++ r.1, r.2)
  | .functionDef name ln ds _src body :: rest =>
    let e := process_element fp "function" (pyStrOr ds name) (some ln) (some (qualifyName cc name))
    let b := visitSeq fp cc body
    let r := visitSeq fp b.2 rest
    (e ++ b.1 ++ r.1, r.2)
  | .importStmt ln names :: rest =>
    let es := names.flatMap (fun a => process_element fp "import" a (some ln) (some a))
    let r := visitSeq fp cc rest
    (es ++ r.1, r.2)
  | .importFromStmt ln module names :: rest =>
    let m := module.getD ""
    let es := names.flatMap (fun a =>
      process_element fp "import" (m ++ "." ++ a) (some ln) (some (m ++ "." ++ a)))
    let r := visitSeq fp cc rest
    (es ++ r.1, r.2)
  | .other children :: rest =>
    let cres := visitSeq fp cc children
    let r := visitSeq fp cres.2 rest
    (cres.1 ++ r.1, r.2)

/-- `visit_Module` followed by `generic_visit` on the module body
(`current_class` starts as `None` from `__init__`): the module docstring
element (if the docstring is truthy) followed by the elements of the body
walk. -/
def visitModule (fp : String) (m : PyModule) : List Element :=
  (match m.docstring with
   | some d => process_element fp "module_docstring" d none none
   | none => []) ++ (visitSeq fp none m.body).1

mutual

/-- `true` when the statement contains a class definition anywhere
(including nested inside functions); used to characterise when the
`current_class` tracker survives a stretch of statements. -/
def containsClass : PyNode → Bool
  | .classDef _ _ _ _ _ => true
  | .functionDef _ _ _ _ body => containsClassList body
  | .importStmt _ _ => false
  | .importFromStmt _ _ _ => false
  | .other children => containsClassList children

/-- `containsClass` over a statement list. -/
def containsClassList : List PyNode → Bool
  | [] => false
  | n :: rest => containsClass n || containsClassList rest

end

/-!  ## Batching and flushing (`process_batch`, the tail of
`process_element`, and `analyze_file`)

The two remote calls of one flush (`client.embeddings.create` and
`index.upsert`) are modelled by an oracle giving the outcome of each flush
attempt, indexed by the number of embedding calls issued so far: the
embedding call raises, the upsert call raises, or both succeed.  -/

/-- Outcome of one flush attempt's remote calls. -/
inductive BatchOutcome where
  | ok
  | embedFail
  | upsertFail
deriving DecidableEq, Repr

/-- The analyzer's mutable batching state: `self.elements` (the success
accumulator), `self.pending_elements`, `self.total_processed`, and the
history of embedding calls issued (each recorded as the batch of elements
whose cleaned contents were sent). -/
structure RunState where
  elements : List Element
  pending : List Element
  total_processed : Nat
  calls : List (List Element)
deriving DecidableEq, Repr

/-- The fresh analyzer state from `__init__`. -/
def initState : RunState :=
  { elements := [], pending := [], total_processed := 0, calls := [] }

/-- `process_batch` (lines 194–235).  If the pending buffer is empty,
return.  Otherwise one embedding call is issued with the batch (recorded in
`calls`).  On an embedding or upsert exception the `except` block only
logs: the pending buffer, accumulator and counter are left untouched.  On
success the counter grows, the pending elements are appended to
`self.elements`, and the pending buffer is cleared. -/
def process_batch (oracle : Nat → BatchOutcome) (st : RunState) : RunState :=
  if st.pending = [] then st
  else
    match oracle st.calls.length with
    | .embedFail => { st with calls := st.calls ++ [st.pending] }
    | .upsertFail => { st with calls := st.calls ++ [st.pending] }
    | .ok =>
      { elements := st.elements ++ st.pending,
        pending := [],
        total_processed := st.total_processed + st.pending.length,
        calls := st.calls ++ [st.pending] }

/-- The batching tail of `process_element` (lines 184–188): append the
element to the pending buffer and flush when the buffer has reached
`self.batch_size`. -/
def feedElement (B : Nat) (oracle : Nat → BatchOutcome) (st : RunState) (e : Element) : RunState :=
  let st' := { st with pending := st.pending ++ [e] }
  if B ≤ st'.pending.length then process_batch oracle st' else st'

/-- Feeding a sequence of elements through the batcher in order. -/
def feedElements (B : Nat) (oracle : Nat → BatchOutcome) (st : RunState)
    (es : List Element) : RunState :=
  es.foldl (feedElement B oracle) st

/-- The batching portion of `analyze_file` (lines 246–250): visit the tree
(feeding every emitted element through the batcher) and flush the
remainder.  (`process_batch` itself returns immediately when the buffer is
empty, matching the `if self.pending_elements:` guard.) -/
def analyzeFileBatches (B : Nat) (oracle : Nat → BatchOutcome) (st : RunState)
    (es : List Element) : RunState :=
  process_batch oracle (feedElements B oracle st es)

/-- `analyze_file` (lines 237–254) for a file that parses to `m`: skip the
file entirely when `should_analyze_file` rejects it, otherwise run the
visitor and the batcher.  (`self.batch_size` is 20 — line 127.) -/
def analyze_file (oracle : Nat → BatchOutcome) (st : RunState) (fp : String)
    (m : PyModule) : RunState :=
  if should_analyze_file fp then analyzeFileBatches 20 oracle st (visitModule fp m)
  else st

/-- The failure-free oracle. -/
def okOracle : Nat → BatchOutcome := fun _ => .ok

/-!  ## Concrete inputs used by counterexamples and witnesses -/

/-- An oracle whose first flush attempt fails at the upsert call (the
embedding call itself returned normally) and whose later flushes succeed. -/
def cexOracle : Nat → BatchOutcome := fun k => if k = 0 then .upsertFail else .ok

/-- The element the pipeline emits for a module-level `def main` (with a
docstring) at line 1 of `proj/app.py`. -/
def cexElemA : Element :=
  { id := "proj/app.py:1:function:main", content := "Entry point.",
    etype := "function", name := "main", file_path := "proj/app.py",
    line_number := "1" }

/-- The element the pipeline emits for a module-level `def helper` at line 1
of `proj/util.py`. -/
def cexElemB : Element :=
  { id := "proj/util.py:1:function:helper", content := "Helps.",
    etype := "function", name := "helper", file_path := "proj/util.py",
    line_number := "1" }

/-- Two one-element files analyzed by one analyzer instance under
`cexOracle`: the first file's final flush (embedding call 0) fails at the
upsert, the second file's final flush succeeds. -/
def cexRun : RunState :=
  analyzeFileBatches 20 cexOracle
    (analyzeFileBatches 20 cexOracle initState [cexElemA]) [cexElemB]

/-- A file containing a single class `Foo` with no docstring whose body is
`x = 1`; the verbatim source segment of the definition is carried in the
node. -/
def c1Module : PyModule :=
  { docstring := none,
    body := [.classDef "Foo" 1 none "class Foo:\n    x = 1" [.other []]] }

/-- A file with class `Foo` containing first a nested class `Bar` and then a
method `m` — the shape on which non-reentrant `current_class` tracking
loses the enclosing class. -/
def c4Module : PyModule :=
  { docstring := none,
    body := [.classDef "Foo" 1 none "class Foo:\n    ..."
      [.classDef "Bar" 2 none "class Bar:\n        pass" [.other []],
       .functionDef "m" 4 none "def m(self):\n        pass" [.other []]]] }

/-- Interchangeable dummy elements for batcher witnesses. -/
def dummyElem (n : Nat) : Element :=
  { id := toString n, content := "body", etype := "function", name := "f",
    file_path := "p.py", line_number := toString n }

/-!  ## Batcher lemmas -/

theorem ceil_div_split (N B : Nat) (hB : 0 < B) :
    (N + B - 1) / B = N / B + (if N % B = 0 then 0 else 1) := by
  obtain ⟨q, r, hr, rfl⟩ : ∃ q r, r < B ∧ N = B * q + r :=
    ⟨N / B, N % B, Nat.mod_lt _ hB, (Nat.div_add_mod N B).symm⟩
  have key : (B * q + r + B - 1) / B = q + (if r = 0 then 0 else 1) := by
    rcases Nat.eq_zero_or_pos r with h0 | hpos
    · subst h0
      rw [if_pos rfl]
      have h1 : B * q + 0 + B - 1 = B * q + (B - 1) := by
        generalize B * q = M; omega
      rw [h1, Nat.mul_add_div hB, Nat.div_eq_of_lt (by omega)]
    · rw [if_neg (by omega)]
      have h1 : B * q + r + B - 1 = B * (q + 1) + (r - 1) := by
        rw [Nat.mul_add, Nat.mul_one]; generalize B * q = M; omega
      rw [h1, Nat.mul_add_div hB, Nat.div_eq_of_lt (by omega), Nat.add_zero]
  rw [key, Nat.mul_add_div hB, Nat.div_eq_of_lt hr, Nat.add_zero, Nat.mul_add_mod,
    Nat.mod_eq_of_lt hr]

/-- Behaviour of the batcher on a failure-free run, from any state whose
pending buffer is below the threshold: the pending remainder, the number of
embedding calls, the fact that every new call carries exactly `B` elements,
and conservation of the element stream (the concatenation of all calls
followed by the pending buffer extends by exactly the fed elements,
in order). -/
theorem feedElements_ok (B : Nat) (hB : 0 < B) :
    ∀ (es : List Element) (st : RunState), st.pending.length < B →
      (feedElements B okOracle st es).pending.length = (st.pending.length + es.length) % B ∧
      (feedElements B okOracle st es).calls.length
        = st.calls.length + (st.pending.length + es.length) / B ∧
      (∃ nc, (feedElements B okOracle st es).calls = st.calls ++ nc ∧
        ∀ c ∈ nc, c.length = B) ∧
      (feedElements B okOracle st es).calls.flatten ++ (feedElements B okOracle st es).pending
        = st.calls.flatten ++ st.pending ++ es := by
  intro es
  induction es with
  | nil =>
    intro st h
    refine ⟨?_, ?_, ⟨[], by simp [feedElements], by simp⟩, by simp [feedElements]⟩
    · simp [feedElements, Nat.mod_eq_of_lt h]
    · simp [feedElements, Nat.div_eq_of_lt h]
  | cons e rest ih =>
    intro st h
    have hstep : feedElements B okOracle st (e :: rest)
        = feedElements B okOracle (feedElement B okOracle st e) rest := rfl
    by_cases hfull : B ≤ st.pending.length + 1
    · have hEq : st.pending.length + 1 = B := by omega
      have hfe : feedElement B okOracle st e =
          { elements := st.elements ++ (st.pending ++ [e]),
            pending := [],
            total_processed := st.total_processed + (st.pending ++ [e]).length,
            calls := st.calls ++ [st.pending ++ [e]] } := by
        unfold feedElement process_batch
        simp only [List.length_append, List.length_cons, List.length_nil]
        rw [if_pos (by simpa using hfull)]
        rw [if_neg (by simp)]
        rfl
      obtain ⟨hp, hc, ⟨nc, hnc, hncB⟩, hj⟩ :=
        ih ({ elements := st.elements ++ (st.pending ++ [e]),
              pending := [],
              total_processed := st.total_processed + (st.pending ++ [e]).length,
              calls := st.calls ++ [st.pending ++ [e]] }) (by simpa using hB)
      rw [hstep, hfe]
      simp only [List.length_nil, List.length_cons, List.length_append, Nat.zero_add]
        at hp hc hnc hj ⊢
      refine ⟨?_, ?_, ?_, ?_⟩
      · rw [hp]
        conv_rhs => rw [show st.pending.length + (rest.length + 1) = rest.length + B by omega]
        rw [Nat.add_mod_right]
      · rw [hc]
        conv_rhs => rw [show st.pending.length + (rest.length + 1) = rest.length + B by omega]
        rw [Nat.add_div_right _ hB]
        omega
      · refine ⟨(st.pending ++ [e]) :: nc, by simpa using hnc, ?_⟩
        intro c hcmem
        rw [List.mem_cons] at hcmem
        rcases hcmem with rfl | hcmem
        · simp only [List.length_append, List.length_cons, List.length_nil]; omega
        · exact hncB c hcmem
      · rw [hj]; simp
    · have hfe : feedElement B okOracle st e = { st with pending := st.pending ++ [e] } := by
        unfold feedElement
        rw [if_neg (by simpa using hfull)]
      obtain ⟨hp, hc, ⟨nc, hnc, hncB⟩, hj⟩ :=
        ih ({ st with pending := st.pending ++ [e] }) (by simp; omega)
      rw [hstep, hfe]
      have harg : ({ st with pending := st.pending ++ [e] } : RunState).pending.length + rest.length
          = st.pending.length + (e :: rest).length := by simp; omega
      refine ⟨?_, ?_, ⟨nc, by simpa using hnc, hncB⟩, ?_⟩
      · rw [hp, harg]
      · rw [hc, harg]
      · rw [hj]; simp

/-!  ## Claim C3 -/

/-- C3: for a sequence of `N` elements fed to the batcher with batch size
`B` and no provider failures, exactly `⌈N / B⌉` (written `(N + B - 1) / B`)
provider embedding calls are issued, and the last call carries `N mod B`
texts (`B` texts when `B` divides `N`).  One text is sent per batch
element, so call sizes are counted in elements. -/
theorem c3_batch_invariant (B : Nat) (es : List Element) (hB : 0 < B) (hne : es ≠ []) :
    (analyzeFileBatches B okOracle initState es).calls.length = (es.length + B - 1) / B ∧
    ∃ c, (analyzeFileBatches B okOracle initState es).calls.getLast? = some c ∧
      c.length = if es.length % B = 0 then B else es.length % B := by
  obtain ⟨hp, hc, ⟨nc, hnc, hncB⟩, hj⟩ :=
    feedElements_ok B hB es initState (by simpa [initState] using hB)
  simp only [show initState.pending = [] from rfl, show initState.calls = [] from rfl,
    List.length_nil, Nat.zero_add, List.nil_append, List.flatten_nil, List.append_nil]
    at hp hc hnc hj
  have hcalls : (feedElements B okOracle initState es).calls.length = es.length / B := by
    simpa using hc
  rw [ceil_div_split es.length B hB]
  unfold analyzeFileBatches
  by_cases hmod : es.length % B = 0
  · have hpnil : (feedElements B okOracle initState es).pending = [] := by
      have := hp
      rw [hmod] at this
      exact List.eq_nil_of_length_eq_zero this
    rw [process_batch, if_pos hpnil]
    have hnonempty : (feedElements B okOracle initState es).calls ≠ [] := by
      intro hcon
      rw [hcon] at hcalls
      have hge : B ≤ es.length := Nat.le_of_dvd (by
        cases es with
        | nil => exact absurd rfl hne
        | cons a l => simp) (Nat.dvd_of_mod_eq_zero hmod)
      have : 0 < es.length / B := Nat.div_pos hge hB
      simp at hcalls
      omega
    refine ⟨by rw [hcalls, hmod]; simp, ?_⟩
    refine ⟨(feedElements B okOracle initState es).calls.getLast hnonempty,
      List.getLast?_eq_getLast _ hnonempty, ?_⟩
    rw [if_pos hmod]
    have hmem := List.getLast_mem hnonempty
    have hmem' : (feedElements B okOracle initState es).calls.getLast hnonempty ∈ nc := by
      rw [← hnc]; exact hmem
    exact hncB _ hmem'
  · have hpne : (feedElements B okOracle initState es).pending ≠ [] := by
      intro hcon
      rw [hcon] at hp
      simp at hp
      exact hmod hp.symm
    rw [process_batch, if_neg hpne]
    rcases hO : okOracle (feedElements B okOracle initState es).calls.length with _ | _ | _
    · simp only []
      constructor
      · simp only [List.length_append, List.length_cons, List.length_nil]
        rw [hcalls, if_neg hmod]
      · refine ⟨(feedElements B okOracle initState es).pending, List.getLast?_concat _, ?_⟩
        rw [if_neg hmod, hp]
    · exact absurd hO (by simp [okOracle])
    · exact absurd hO (by simp [okOracle])

/-- Witness for C3 at `B = 2` and three concrete elements: two embedding
calls, the last of size 1. -/
theorem c3_batch_invariant_witness :
    (0 < 2 ∧ ([dummyElem 1, dummyElem 2, dummyElem 3] : List Element) ≠ []) ∧
    ((analyzeFileBatches 2 okOracle initState [dummyElem 1, dummyElem 2, dummyElem 3]).calls.length
        = (([dummyElem 1, dummyElem 2, dummyElem 3] : List Element).length + 2 - 1) / 2 ∧
      ∃ c, (analyzeFileBatches 2 okOracle initState
          [dummyElem 1, dummyElem 2, dummyElem 3]).calls.getLast? = some c ∧
        c.length = if ([dummyElem 1, dummyElem 2, dummyElem 3] : List Element).length % 2 = 0
          then 2 else ([dummyElem 1, dummyElem 2, dummyElem 3] : List Element).length % 2) :=
  ⟨⟨by decide, by decide⟩,
    c3_batch_invariant 2 [dummyElem 1, dummyElem 2, dummyElem 3] (by decide) (by decide)⟩

/-!  ## Claim C6 -/

/-- C6: a flush is atomic with respect to the result accumulator — either
the whole pending batch is appended to `self.elements` or none of it is,
and the appended case happens exactly when the flush's remote calls
succeeded (`.ok`, i.e. the upsert call returned; on `.embedFail` the upsert
was never reached, on `.upsertFail` it raised, and in both cases the
accumulator is untouched). -/
theorem c6_flush_atomic (oracle : Nat → BatchOutcome) (st : RunState)
    (h : st.pending ≠ []) :
    ((process_batch oracle st).elements = st.elements ++ st.pending ∧
      oracle st.calls.length = .ok) ∨
    ((process_batch oracle st).elements = st.elements ∧
      oracle st.calls.length ≠ .ok) := by
  unfold process_batch
  rw [if_neg h]
  rcases ho : oracle st.calls.length with _ | _ | _
  · exact Or.inl ⟨rfl, rfl⟩
  · exact Or.inr ⟨rfl, by simp⟩
  · exact Or.inr ⟨rfl, by simp⟩

/-- Witness for C6: a state with one pending element under the all-ok
oracle. -/
theorem c6_flush_atomic_witness :
    ({ initState with pending := [dummyElem 1] } : RunState).pending ≠ [] ∧
    (((process_batch okOracle { initState with pending := [dummyElem 1] }).elements
        = ({ initState with pending := [dummyElem 1] } : RunState).elements
          ++ ({ initState with pending := [dummyElem 1] } : RunState).pending ∧
      okOracle ({ initState with pending := [dummyElem 1] } : RunState).calls.length = .ok) ∨
    ((process_batch okOracle { initState with pending := [dummyElem 1] }).elements
        = ({ initState with pending := [dummyElem 1] } : RunState).elements ∧
      okOracle ({ initState with pending := [dummyElem 1] } : RunState).calls.length ≠ .ok)) :=
  ⟨by decide, c6_flush_atomic okOracle { initState with pending := [dummyElem 1] } (by decide)⟩

/-!  ## Claim C5 -/

/-- Counterexample to C5 as stated: under `cexOracle`, the first file's
final flush (embedding call 0) fails at the upsert, yet its element
`cexElemA` is not dropped — it stays pending, is re-sent in the second
file's flush, and does appear in the final report (`elements`). -/
theorem c5_counterexample :
    cexOracle 0 ≠ .ok ∧
    cexRun.calls.head? = some [cexElemA] ∧
    cexElemA ∈ cexRun.elements := by
  refine ⟨by decide, by decide, by decide⟩

/-- C5 as amended: a failing flush makes exactly one embedding-call attempt
(no retry at the batch layer) and processing continues, but the batch is
not lost: the pending buffer and the accumulator are left exactly as they
were, so the batch is re-sent with the next flush rather than dropped from
the report. -/
theorem c5_amended_failed_flush (oracle : Nat → BatchOutcome) (st : RunState)
    (h : st.pending ≠ []) (hfail : oracle st.calls.length ≠ .ok) :
    process_batch oracle st = { st with calls := st.calls ++ [st.pending] } := by
  unfold process_batch
  rw [if_neg h]
  rcases ho : oracle st.calls.length with _ | _ | _
  · exact absurd ho hfail
  · rfl
  · rfl

/-- Witness for the amended C5: one pending element, first call failing. -/
theorem c5_amended_failed_flush_witness :
    ({ initState with pending := [dummyElem 1] } : RunState).pending ≠ [] ∧
    cexOracle ({ initState with pending := [dummyElem 1] } : RunState).calls.length ≠ .ok ∧
    process_batch cexOracle { initState with pending := [dummyElem 1] }
      = { ({ initState with pending := [dummyElem 1] } : RunState) with
          calls := [] ++ [[dummyElem 1]] } :=
  ⟨by decide, by decide,
    c5_amended_failed_flush cexOracle { initState with pending := [dummyElem 1] }
      (by decide) (by decide)⟩

/-!  ## Claim C2 -/

/-- Counterexample to C2 as stated: in the failing run `cexRun`, element
`cexElemA` appears in two distinct provider embedding calls (call 0, whose
upsert failed, and call 1, which succeeded), so an element that reached the
batcher was embedded twice. -/
theorem c2_counterexample :
    cexRun.calls = [[cexElemA], [cexElemA, cexElemB]] ∧
    cexRun.calls.countP (fun c => decide (cexElemA ∈ c)) = 2 := by
  refine ⟨by decide, by decide⟩

/-- C2 as amended: on a failure-free run, the concatenation of all
embedding calls plus the leftover pending buffer is exactly the fed element
stream — so each fed element occurrence is embedded exactly once and never
re-ordered; the at-most-once guarantee holds only when no flush fails
(a failed flush leaves its batch pending and it is re-sent later, see the
C5 theorems). -/
theorem c2_amended_once_when_ok (B : Nat) (es : List Element) (hB : 0 < B) :
    (analyzeFileBatches B okOracle initState es).calls.flatten = es := by
  obtain ⟨hp, hc, ⟨nc, hnc, hncB⟩, hj⟩ :=
    feedElements_ok B hB es initState (by simpa [initState] using hB)
  simp only [show initState.pending = [] from rfl, show initState.calls = [] from rfl,
    List.length_nil, Nat.zero_add, List.nil_append, List.flatten_nil, List.append_nil]
    at hp hc hnc hj
  unfold analyzeFileBatches
  by_cases hpnil : (feedElements B okOracle initState es).pending = []
  · rw [process_batch, if_pos hpnil]
    rw [hpnil, List.append_nil] at hj
    exact hj
  · rw [process_batch, if_neg hpnil]
    rcases hO : okOracle (feedElements B okOracle initState es).calls.length with _ | _ | _
    · simpa using hj
    · exact absurd hO (by simp [okOracle])
    · exact absurd hO (by simp [okOracle])

/-- Witness for the amended C2 at `B = 2` with three elements. -/
theorem c2_amended_once_when_ok_witness :
    0 < 2 ∧
    (analyzeFileBatches 2 okOracle initState
        [dummyElem 1, dummyElem 2, dummyElem 3]).calls.flatten
      = [dummyElem 1, dummyElem 2, dummyElem 3] :=
  ⟨by decide, c2_amended_once_when_ok 2 [dummyElem 1, dummyElem 2, dummyElem 3] (by decide)⟩

/-!  ## Claim C9 -/

/-- C9: any path containing the substring `node_modules` is rejected by the
file filter (even a `.py` path), and `analyze_file` leaves the analyzer
state untouched on such a path — the file is never analyzed. -/
theorem c9_node_modules_never_analyzed (p : String) (oracle : Nat → BatchOutcome)
    (st : RunState) (m : PyModule)
    (h : subStrIn "node_modules".toList p.toList = true) :
    should_analyze_file p = false ∧ analyze_file oracle st p m = st := by
  have hf : should_analyze_file p = false := by
    unfold should_analyze_file
    rw [if_pos]
    apply List.any_eq_true.mpr
    exact ⟨"node_modules", by simp [IGNORE_PATTERNS], h⟩
  exact ⟨hf, by unfold analyze_file; rw [hf]; simp⟩

/-- Witness for C9: a concrete `.py` path inside a `node_modules`
directory. -/
theorem c9_node_modules_never_analyzed_witness :
    subStrIn "node_modules".toList "lib/node_modules/a.py".toList = true ∧
    (should_analyze_file "lib/node_modules/a.py" = false ∧
      analyze_file okOracle initState "lib/node_modules/a.py" ⟨none, []⟩ = initState) :=
  ⟨by decide,
    c9_node_modules_never_analyzed "lib/node_modules/a.py" okOracle initState
      ⟨none, []⟩ (by decide)⟩

/-!  ## Visitor lemmas -/

theorem pyStrOr_ne_empty (ds : Option String) (fb : String) (h : fb ≠ "") :
    pyStrOr ds fb ≠ "" := by
  cases ds with
  | none => simp only [pyStrOr]; exact h
  | some d =>
    by_cases hd : d = ""
    · simp only [pyStrOr, hd, if_pos]; exact h
    · simp only [pyStrOr, if_neg hd]; exact hd

theorem class_fallback_ne_empty (name : String) : ("Class " ++ name) ≠ "" := by
  intro h
  have hlen := congrArg String.length h
  rw [String.length_append] at hlen
  have h6 : ("Class " : String).length = 6 := rfl
  have h0 : ("" : String).length = 0 := rfl
  omega

/-- Everything `process_element` can emit: the fully-determined record, and
the fact that its content was non-empty. -/
theorem process_element_mem {fp t content : String} {ln : Option Nat}
    {nm : Option String} {e : Element} (h : e ∈ process_element fp t content ln nm) :
    e = { id := fp ++ ":" ++ lineStr ln ++ ":" ++ t ++ ":" ++ nm.getD t,
          content := content, etype := t, name := nm.getD t,
          file_path := fp, line_number := lineStr ln } ∧ content ≠ "" := by
  unfold process_element at h
  by_cases hc : content = ""
  · rw [if_pos hc] at h; simp at h
  · rw [if_neg hc] at h
    simp only [List.mem_singleton] at h
    exact ⟨h, hc⟩

/-- Every element the tree walk emits has the deterministic id
`{file_path}:{line_number}:{type}:{name}` built from its own metadata
fields. -/
theorem visitSeq_id_format (fp : String) :
    ∀ (cc : Option String) (l : List PyNode), ∀ e ∈ (visitSeq fp cc l).1,
      e.id = e.file_path ++ ":" ++ e.line_number ++ ":" ++ e.etype ++ ":" ++ e.name := by
  intro cc l
  induction cc, l using visitSeq.induct fp with
  | case1 cc =>
    intro e he
    rw [visitSeq.eq_1] at he
    exact absurd he (List.not_mem_nil e)
  | case2 cc name ln ds src body rest ihBody ihRest =>
    intro e he
    simp only [visitSeq, List.mem_append] at he
    rcases he with (he | he) | he
    · obtain ⟨rfl, -⟩ := process_element_mem he
      rfl
    · exact ihBody e he
    · exact ihRest e he
  | case3 cc name ln ds src body rest b ihBody ihRest =>
    intro e he
    simp only [visitSeq, List.mem_append] at he
    rcases he with (he | he) | he
    · obtain ⟨rfl, -⟩ := process_element_mem he
      rfl
    · exact ihBody e he
    · exact ihRest e he
  | case4 cc ln names rest ihRest =>
    intro e he
    simp only [visitSeq, List.mem_append, List.mem_flatMap] at he
    rcases he with ⟨a, -, he⟩ | he
    · obtain ⟨rfl, -⟩ := process_element_mem he
      rfl
    · exact ihRest e he
  | case5 cc ln module names rest ihRest =>
    intro e he
    simp only [visitSeq, List.mem_append, List.mem_flatMap] at he
    rcases he with ⟨a, -, he⟩ | he
    · obtain ⟨rfl, -⟩ := process_element_mem he
      rfl
    · exact ihRest e he
  | case6 cc children rest cres ihChildren ihRest =>
    intro e he
    simp only [visitSeq, List.mem_append] at he
    rcases he with he | he
    · exact ihChildren e he
    · exact ihRest e he

/-!  ## Claim C8 -/

/-- C8: every element the extractor emits for a file carries the vector id
`{file_path}:{line_number}:{type}:{name}` assembled from its own metadata
(`line_number` is the decimal `lineno`, or the sentinel `"unknown"` for the
module node, which has no `lineno`), and the walk is a pure function of the
parsed file, so two runs on an unchanged file produce identical ids. -/
theorem c8_deterministic_ids (fp : String) (m : PyModule) :
    (∀ e ∈ visitModule fp m,
      e.id = e.file_path ++ ":" ++ e.line_number ++ ":" ++ e.etype ++ ":" ++ e.name) ∧
    (visitModule fp m).map (fun e => e.id) = (visitModule fp m).map (fun e => e.id) := by
  refine ⟨?_, rfl⟩
  intro e he
  unfold visitModule at he
  rw [List.mem_append] at he
  rcases he with he | he
  · cases hds : m.docstring with
    | none => rw [hds] at he; exact absurd he (List.not_mem_nil e)
    | some d =>
      rw [hds] at he
      obtain ⟨rfl, -⟩ := process_element_mem he
      rfl
  · exact visitSeq_id_format fp none m.body e he

/-- Witness for C8 on the concrete module `c4Module` (and, explicitly, the
sentinel-bearing id of a module docstring element). -/
theorem c8_deterministic_ids_witness :
    (∀ e ∈ visitModule "a.py" c4Module,
      e.id = e.file_path ++ ":" ++ e.line_number ++ ":" ++ e.etype ++ ":" ++ e.name) ∧
    (visitModule "a.py" c4Module).map (fun e => e.id)
      = (visitModule "a.py" c4Module).map (fun e => e.id) :=
  c8_deterministic_ids "a.py" c4Module

/-!  ## Claim C1 -/

/-- Counterexample to C1 as stated: the class `Foo` of `c1Module` has no
docstring, and the element emitted for it has content `"Class Foo"` — the
fallback string, not a combination of an empty docstring with the node's
verbatim source text `"class Foo:\n    x = 1"`, which is nowhere contained
in the content. -/
theorem c1_counterexample :
    (visitModule "a.py" c1Module).map (fun e => e.content) = ["Class Foo"] ∧
    subStrIn "class Foo:\n    x = 1".toList "Class Foo".toList = false := by
  constructor
  · simp [visitModule, c1Module, visitSeq, process_element, pyStrOr]
  · decide

/-- C1 as amended: the emitted content is the docstring alone — with the
fallback `"Class {name}"` for a class (resp. the bare function name for a
function) when the docstring is absent or empty — and the node's verbatim
source text is never read: the walk is unchanged when the source segment is
replaced by any other string. -/
theorem c1_amended (fp : String) (cc : Option String) (name : String) (ln : Nat)
    (ds : Option String) (src src' : String) (body rest : List PyNode) :
    (visitSeq fp cc (.classDef name ln ds src body :: rest)
        = visitSeq fp cc (.classDef name ln ds src' body :: rest) ∧
      visitSeq fp cc (.functionDef name ln ds src body :: rest)
        = visitSeq fp cc (.functionDef name ln ds src' body :: rest)) ∧
    (visitSeq fp cc (.classDef name ln ds src body :: rest)).1.map (fun e => e.content)
      = pyStrOr ds ("Class " ++ name)
        :: ((visitSeq fp (some name) body).1 ++ (visitSeq fp none rest).1).map
            (fun e => e.content) ∧
    (name ≠ "" →
      (visitSeq fp cc (.functionDef name ln ds src body :: rest)).1.map (fun e => e.content)
        = pyStrOr ds name
          :: ((visitSeq fp cc body).1
              ++ (visitSeq fp (visitSeq fp cc body).2 rest).1).map (fun e => e.content)) := by
  refine ⟨⟨by simp [visitSeq], by simp [visitSeq]⟩, ?_, ?_⟩
  · simp only [visitSeq]
    rw [process_element, if_neg (pyStrOr_ne_empty ds _ (class_fallback_ne_empty name))]
    simp
  · intro hname
    simp only [visitSeq]
    rw [process_element, if_neg (pyStrOr_ne_empty ds _ hname)]
    simp

/-- Witness for the amended C1 at the concrete docstring-less class of
`c1Module` (and a function named `m`). -/
theorem c1_amended_witness :
    ((visitSeq "a.py" none
          [.classDef "Foo" 1 none "class Foo:\n    x = 1" [.other []]]
        = visitSeq "a.py" none [.classDef "Foo" 1 none "SOMETHING ELSE" [.other []]] ∧
      visitSeq "a.py" none [.functionDef "Foo" 1 none "class Foo:\n    x = 1" [.other []]]
        = visitSeq "a.py" none [.functionDef "Foo" 1 none "SOMETHING ELSE" [.other []]]) ∧
    (visitSeq "a.py" none
        [.classDef "Foo" 1 none "class Foo:\n    x = 1" [.other []]]).1.map (fun e => e.content)
      = pyStrOr none ("Class " ++ "Foo")
        :: ((visitSeq "a.py" (some "Foo") [.other []]).1
            ++ (visitSeq "a.py" none ([] : List PyNode)).1).map (fun e => e.content) ∧
    (("Foo" : String) ≠ "" →
      (visitSeq "a.py" none
          [.functionDef "Foo" 1 none "class Foo:\n    x = 1" [.other []]]).1.map
            (fun e => e.content)
        = pyStrOr none "Foo"
          :: ((visitSeq "a.py" none [.other []]).1
              ++ (visitSeq "a.py"
                  (visitSeq "a.py" none [.other ([] : List PyNode)]).2
                  ([] : List PyNode)).1).map (fun e => e.content))) :=
  c1_amended "a.py" none "Foo" 1 none "class Foo:\n    x = 1" "SOMETHING ELSE" [.other []] []

/-!  ## Tracking of `current_class` -/

theorem containsClassList_eq_false {l : List PyNode} :
    containsClassList l = false ↔ ∀ n ∈ l, containsClass n = false := by
  induction l with
  | nil => simp [containsClassList]
  | cons n rest ih => simp [containsClassList, ih]

/-- Whatever statements are visited, the tracker ends up either unchanged
or reset to `None` — in particular a walk started with `current_class =
None` ends with `None`, so module-level functions are never qualified. -/
theorem visitSeq_cc_none_or (fp : String) :
    ∀ (cc : Option String) (l : List PyNode),
      (visitSeq fp cc l).2 = cc ∨ (visitSeq fp cc l).2 = none := by
  intro cc l
  induction cc, l using visitSeq.induct fp with
  | case1 cc => left; rw [visitSeq.eq_1]
  | case2 cc name ln ds src body rest ihBody ihRest =>
    simp only [visitSeq]
    rcases ihRest with h | h
    · right; exact h
    · right; exact h
  | case3 cc name ln ds src body rest b ihBody ihRest =>
    simp only [visitSeq]
    rcases ihRest with h | h
    · rw [h]; exact ihBody
    · right; exact h
  | case4 cc ln names rest ihRest =>
    simp only [visitSeq]; exact ihRest
  | case5 cc ln module names rest ihRest =>
    simp only [visitSeq]; exact ihRest
  | case6 cc children rest cres ihChildren ihRest =>
    simp only [visitSeq]
    rcases ihRest with h | h
    · rw [h]; exact ihChildren
    · right; exact h

/-- As long as no class definition occurs anywhere in a stretch of
statements, the tracker survives it unchanged. -/
theorem visitSeq_noclass_cc (fp : String) :
    ∀ (cc : Option String) (l : List PyNode), containsClassList l = false →
      (visitSeq fp cc l).2 = cc := by
  intro cc l
  induction cc, l using visitSeq.induct fp with
  | case1 cc => intro _; rw [visitSeq.eq_1]
  | case2 cc name ln ds src body rest ihBody ihRest =>
    intro hcl
    exact absurd hcl (by simp [containsClassList, containsClass])
  | case3 cc name ln ds src body rest b ihBody ihRest =>
    intro hcl
    simp only [containsClassList, containsClass, Bool.or_eq_false_iff] at hcl
    simp only [visitSeq]
    rw [ihRest hcl.2]
    exact ihBody hcl.1
  | case4 cc ln names rest ihRest =>
    intro hcl
    simp only [containsClassList, containsClass, Bool.or_eq_false_iff] at hcl
    simp only [visitSeq]
    exact ihRest hcl.2
  | case5 cc ln module names rest ihRest =>
    intro hcl
    simp only [containsClassList, containsClass, Bool.or_eq_false_iff] at hcl
    simp only [visitSeq]
    exact ihRest hcl.2
  | case6 cc children rest cres ihChildren ihRest =>
    intro hcl
    simp only [containsClassList, containsClass, Bool.or_eq_false_iff] at hcl
    simp only [visitSeq]
    rw [ihRest hcl.2]
    exact ihChildren hcl.1

/-- The walk over a concatenation is the walk over the first part followed
by the walk over the second from the tracker state the first part left. -/
theorem visitSeq_append (fp : String) (l₂ : List PyNode) :
    ∀ (cc : Option String) (l₁ : List PyNode),
      visitSeq fp cc (l₁ ++ l₂)
        = ((visitSeq fp cc l₁).1 ++ (visitSeq fp (visitSeq fp cc l₁).2 l₂).1,
           (visitSeq fp (visitSeq fp cc l₁).2 l₂).2) := by
  intro cc l₁
  induction cc, l₁ using visitSeq.induct fp with
  | case1 cc => simp [visitSeq.eq_1]
  | case2 cc name ln ds src body rest ihBody ihRest =>
    simp only [List.cons_append, visitSeq]
    rw [ihRest]
    simp [List.append_assoc]
  | case3 cc name ln ds src body rest b ihBody ihRest =>
    simp only [List.cons_append, visitSeq]
    rw [ihRest]
    simp [List.append_assoc]
  | case4 cc ln names rest ihRest =>
    simp only [List.cons_append, visitSeq]
    rw [ihRest]
    simp [List.append_assoc]
  | case5 cc ln module names rest ihRest =>
    simp only [List.cons_append, visitSeq]
    rw [ihRest]
    simp [List.append_assoc]
  | case6 cc children rest cres ihChildren ihRest =>
    simp only [List.cons_append, visitSeq]
    rw [ihRest]
    simp [List.append_assoc]

/-!  ## Claim C4 -/

/-- Counterexample to C4 as stated: in `c4Module`, method `m` is defined
lexically directly inside class `Foo` (its innermost — and only — enclosing
class), but because the nested class `Bar` is visited first and
`visit_ClassDef` resets `current_class` to `None` when it finishes, `m` is
emitted with the bare name `"m"` instead of `"Foo.m"`. -/
theorem c4_counterexample :
    (visitModule "a.py" c4Module).map (fun e => e.name) = ["Foo", "Bar", "m"] ∧
    ¬ (visitModule "a.py" c4Module).map (fun e => e.name) = ["Foo", "Bar", "Foo.m"] := by
  have h1 : (visitModule "a.py" c4Module).map (fun e => e.name) = ["Foo", "Bar", "m"] := by
    simp [visitModule, c4Module, visitSeq, process_element, pyStrOr, qualifyName]
  refine ⟨h1, ?_⟩
  rw [h1]
  decide

/-- C4 as amended: a function directly inside class `Foo` is emitted as
`Foo.funcname` provided no class definition occurs (anywhere, including
inside earlier sibling functions) among the statements of `Foo`'s body that
precede it — after any nested class completes, the tracker is `None` and
later methods of `Foo` get bare names; a module-level function is always
emitted with the bare name, regardless of what precedes it. -/
theorem c4_amended :
    (∀ (fp : String) (cc : Option String) (clsName : String) (lnC : Nat)
        (dsC : Option String) (srcC : String) (pre : List PyNode)
        (fname : String) (lnF : Nat) (dsF : Option String) (srcF : String)
        (fbody post : List PyNode),
      containsClassList pre = false →
      ∃ tail, (visitSeq fp cc
          [.classDef clsName lnC dsC srcC
            (pre ++ .functionDef fname lnF dsF srcF fbody :: post)]).1
        = process_element fp "class" (pyStrOr dsC ("Class " ++ clsName)) (some lnC)
            (some clsName)
          ++ (visitSeq fp (some clsName) pre).1
          ++ process_element fp "function" (pyStrOr dsF fname) (some lnF)
              (some (clsName ++ "." ++ fname))
          ++ tail) ∧
    (∀ (fp : String) (mds : Option String) (pre : List PyNode) (fname : String)
        (lnF : Nat) (dsF : Option String) (srcF : String) (fbody post : List PyNode),
      ∃ tail, visitModule fp ⟨mds, pre ++ .functionDef fname lnF dsF srcF fbody :: post⟩
        = (match mds with
            | some d => process_element fp "module_docstring" d none none
            | none => [])
          ++ (visitSeq fp none pre).1
          ++ process_element fp "function" (pyStrOr dsF fname) (some lnF) (some fname)
          ++ tail) := by
  constructor
  · intro fp cc clsName lnC dsC srcC pre fname lnF dsF srcF fbody post hpre
    refine ⟨(visitSeq fp (some clsName) fbody).1
      ++ (visitSeq fp (visitSeq fp (some clsName) fbody).2 post).1, ?_⟩
    simp only [visitSeq]
    rw [visitSeq_append fp (.functionDef fname lnF dsF srcF fbody :: post) (some clsName) pre,
      visitSeq_noclass_cc fp (some clsName) pre hpre]
    simp only [visitSeq, qualifyName]
    simp [List.append_assoc]
  · intro fp mds pre fname lnF dsF srcF fbody post
    refine ⟨(visitSeq fp none fbody).1
      ++ (visitSeq fp (visitSeq fp none fbody).2 post).1, ?_⟩
    unfold visitModule
    rw [visitSeq_append fp (.functionDef fname lnF dsF srcF fbody :: post) none pre]
    have hnone : (visitSeq fp none pre).2 = none := by
      rcases visitSeq_cc_none_or fp none pre with h | h
      · exact h
      · exact h
    rw [hnone]
    simp only [visitSeq, qualifyName]
    simp [List.append_assoc]

/-- Witness for the amended C4: class `Foo` whose body is an import-
statement node followed by method `m` (emitted as `Foo.m`), and a module
with an import-statement node followed by a module-level `main` (emitted
bare). -/
theorem c4_amended_witness :
    (containsClassList [.importStmt 2 ["os"]] = false ∧
      ∃ tail, (visitSeq "a.py" none
          [.classDef "Foo" 1 none "class Foo: ..."
            ([.importStmt 2 ["os"]]
              ++ .functionDef "m" 3 none "def m(self): ..." [] :: [])]).1
        = process_element "a.py" "class" (pyStrOr none ("Class " ++ "Foo")) (some 1)
            (some "Foo")
          ++ (visitSeq "a.py" (some "Foo") [.importStmt 2 ["os"]]).1
          ++ process_element "a.py" "function" (pyStrOr none "m") (some 3)
              (some ("Foo" ++ "." ++ "m"))
          ++ tail) ∧
    (∃ tail, visitModule "b.py"
        ⟨none, [.importStmt 1 ["sys"]]
          ++ .functionDef "main" 2 none "def main(): ..." [] :: []⟩
      = (match (none : Option String) with
          | some d => process_element "b.py" "module_docstring" d none none
          | none => [])
        ++ (visitSeq "b.py" none [.importStmt 1 ["sys"]]).1
        ++ process_element "b.py" "function" (pyStrOr none "main") (some 2) (some "main")
        ++ tail) :=
  ⟨⟨by decide,
    c4_amended.1 "a.py" none "Foo" 1 none "class Foo: ..." [.importStmt 2 ["os"]]
      "m" 3 none "def m(self): ..." [] [] (by decide)⟩,
    c4_amended.2 "b.py" none [.importStmt 1 ["sys"]] "main" 2 none "def main(): ..." [] []⟩

/-!  ## Normalizer lemmas -/

/-- Every character of the collapsed text is either a non-whitespace
character of the input or the single separating space. -/
theorem collapseAux_mem :
    ∀ (s : List Char) (em sw : Bool) (c : Char), c ∈ collapseAux em sw s →
      pyIsWs c = false ∨ c = ' ' := by
  intro s
  induction s with
  | nil => intro em sw c h; simp [collapseAux] at h
  | cons x rest ih =>
    intro em sw c h
    unfold collapseAux at h
    by_cases hx : pyIsWs x
    · rw [if_pos hx] at h
      exact ih _ _ _ h
    · rw [if_neg hx] at h
      by_cases hes : (em && sw) = true
      · rw [if_pos hes] at h
        simp only [List.mem_cons] at h
        rcases h with rfl | rfl | h
        · right; rfl
        · left; exact Bool.not_eq_true _ ▸ (by simpa using hx)
        · exact ih _ _ _ h
      · rw [if_neg hes] at h
        simp only [List.mem_cons] at h
        rcases h with rfl | h
        · left; simpa using hx
        · exact ih _ _ _ h

theorem collapse_no_nl (s : List Char) (em sw : Bool) : '\n' ∉ collapseAux em sw s := by
  intro h
  rcases collapseAux_mem s em sw _ h with h1 | h1
  · have : pyIsWs '\n' = true := by decide
    rw [this] at h1
    exact absurd h1 (by decide)
  · exact absurd h1 (by decide)

theorem dropThroughNl_eq_none : ∀ (l : List Char), '\n' ∉ l → dropThroughNl l = none := by
  intro l
  induction l with
  | nil => intro _; rfl
  | cons c rest ih =>
    intro h
    have h1 : ¬ (c = '\n') := fun hc => h (hc ▸ List.mem_cons_self c rest)
    unfold dropThroughNl
    rw [if_neg h1]
    exact ih (fun hm => h (List.mem_cons_of_mem c hm))

theorem subImportLineF_id :
    ∀ (f : Nat) (l : List Char), '\n' ∉ l → subImportLineF f l = l := by
  intro f
  induction f with
  | zero => intro l _; rfl
  | succ f ih =>
    intro l h
    cases l with
    | nil => rfl
    | cons c rest =>
      have hrest : '\n' ∉ rest := fun hm => h (List.mem_cons_of_mem c hm)
      have hno : dropThroughNl (List.drop 6 (c :: rest)) = none :=
        dropThroughNl_eq_none _ (fun hm => h (List.drop_subset _ _ hm))
      unfold subImportLineF
      by_cases hp : ("import".toList).isPrefixOf (c :: rest) = true
      · rw [if_pos hp]
        simp only [hno]
        rw [ih rest hrest]
      · rw [if_neg hp, ih rest hrest]

theorem subFromImportLineF_id :
    ∀ (f : Nat) (l : List Char), '\n' ∉ l → subFromImportLineF f l = l := by
  intro f
  induction f with
  | zero => intro l _; rfl
  | succ f ih =>
    intro l h
    cases l with
    | nil => rfl
    | cons c rest =>
      have hrest : '\n' ∉ rest := fun hm => h (List.mem_cons_of_mem c hm)
      have hany : (List.drop 4 (c :: rest)).any (· = '\n') = false := by
        rw [List.any_eq_false]
        intro x hx
        simp only [decide_eq_true_eq]
        intro hxeq
        exact h (List.drop_subset _ _ (hxeq ▸ hx))
      unfold subFromImportLineF
      by_cases hp : ("from".toList).isPrefixOf (c :: rest) = true
      · rw [if_pos hp]
        simp only [hany, Bool.and_false]
        rw [if_neg Bool.false_ne_true, ih rest hrest]
      · rw [if_neg hp, ih rest hrest]

theorem subCommentLineF_id :
    ∀ (f : Nat) (l : List Char), '\n' ∉ l → subCommentLineF f l = l := by
  intro f
  induction f with
  | zero => intro l _; rfl
  | succ f ih =>
    intro l h
    cases l with
    | nil => rfl
    | cons c rest =>
      have hrest : '\n' ∉ rest := fun hm => h (List.mem_cons_of_mem c hm)
      have hno : dropThroughNl rest = none := dropThroughNl_eq_none _ hrest
      unfold subCommentLineF
      by_cases hp : c = '#'
      · rw [if_pos hp]
        simp only [hno]
        rw [ih rest hrest]
      · rw [if_neg hp, ih rest hrest]

/-!  ## Claim C10 -/

/-- C10: `clean_and_truncate_text` coincides with the regex-free function
(collapse whitespace, truncate, strip): the whitespace collapse removes
every newline, and each of the three substitution patterns needs a literal
newline to match, so the three `re.sub` passes are identities on the
collapsed text. -/
theorem c10_regex_passes_are_noops (s : List Char) (maxLength : Nat) :
    clean_and_truncate_text s maxLength = cleanTruncateSimple s maxLength := by
  unfold clean_and_truncate_text cleanTruncateSimple subImportLine subFromImportLine
    subCommentLine
  have h0 : '\n' ∉ collapseWs s := collapse_no_nl s false false
  rw [subImportLineF_id _ _ h0, subFromImportLineF_id _ _ h0, subCommentLineF_id _ _ h0]

/-- Shared unfolding: on any input, the three substitution passes are
identities (the collapsed text has no newline), so `clean_and_truncate_text`
is collapse–truncate–strip. -/
theorem clean_unfold (s : List Char) (maxLength : Nat) :
    clean_and_truncate_text s maxLength
      = stripChars (truncateBlock (collapseWs s) maxLength) := by
  unfold clean_and_truncate_text subImportLine subFromImportLine subCommentLine
  have h0 : '\n' ∉ collapseWs s := collapse_no_nl s false false
  rw [subImportLineF_id _ _ h0, subFromImportLineF_id _ _ h0, subCommentLineF_id _ _ h0]

theorem rfindIn_some_spec :
    ∀ (s : List Char) (n : Nat) (c : Char) (i : Nat), rfindIn c s n = some i →
      i < n ∧ ∃ h : i < s.length, s.get ⟨i, h⟩ = c := by
  intro s
  induction s with
  | nil => intro n c i h; simp [rfindIn] at h
  | cons x xs ih =>
    intro n c i h
    cases n with
    | zero => simp [rfindIn] at h
    | succ n =>
      unfold rfindIn at h
      cases hr : rfindIn c xs n with
      | some j =>
        rw [hr] at h
        simp only [Option.some.injEq] at h
        obtain ⟨hjn, hjlen, hjc⟩ := ih n c j hr
        subst h
        exact ⟨by omega, ⟨by simpa using Nat.succ_lt_succ hjlen, hjc⟩⟩
      | none =>
        rw [hr] at h
        by_cases hx : x = c
        · rw [if_pos hx] at h
          simp only [Option.some.injEq] at h
          subst h
          exact ⟨by omega, ⟨by simp, hx⟩⟩
        · rw [if_neg hx] at h
          simp at h

theorem rfindIn_none_spec :
    ∀ (s : List Char) (n : Nat) (c : Char), rfindIn c s n = none →
      ∀ (i : Nat) (h : i < s.length), i < n → s.get ⟨i, h⟩ ≠ c := by
  intro s
  induction s with
  | nil => intro n c _ i h _; exact absurd h (by simp)
  | cons x xs ih =>
    intro n c hnone i h hin
    cases n with
    | zero => omega
    | succ n =>
      unfold rfindIn at hnone
      cases hr : rfindIn c xs n with
      | some j => rw [hr] at hnone; simp at hnone
      | none =>
        rw [hr] at hnone
        by_cases hx : x = c
        · rw [if_pos hx] at hnone; simp at hnone
        · rw [if_neg hx] at hnone
          cases i with
          | zero => exact hx
          | succ i => exact ih n c hr i (by simpa using Nat.lt_of_succ_lt_succ h) (by omega)

theorem collapse_head_not_ws :
    ∀ (s : List Char) (sw : Bool) (c : Char) (t : List Char),
      collapseAux false sw s = c :: t → pyIsWs c = false := by
  intro s
  induction s with
  | nil => intro sw c t h; simp [collapseAux] at h
  | cons x rest ih =>
    intro sw c t h
    unfold collapseAux at h
    by_cases hx : pyIsWs x
    · rw [if_pos hx] at h
      exact ih _ _ _ h
    · rw [if_neg hx] at h
      rw [Bool.false_and, if_neg Bool.false_ne_true] at h
      obtain ⟨rfl, -⟩ := List.cons.injEq .. ▸ h
      simpa using hx

theorem length_dropWhile_le' (p : Char → Bool) :
    ∀ (l : List Char), (l.dropWhile p).length ≤ l.length := by
  intro l
  induction l with
  | nil => simp
  | cons c t ih =>
    rw [List.dropWhile_cons]
    by_cases h : p c = true
    · rw [if_pos h]; simp; omega
    · rw [if_neg h]

theorem stripChars_length_le (l : List Char) : (stripChars l).length ≤ l.length := by
  unfold stripChars
  calc ((l.dropWhile pyIsWs).reverse.dropWhile pyIsWs).reverse.length
      = ((l.dropWhile pyIsWs).reverse.dropWhile pyIsWs).length := List.length_reverse _
    _ ≤ (l.dropWhile pyIsWs).reverse.length := length_dropWhile_le' _ _
    _ = (l.dropWhile pyIsWs).length := List.length_reverse _
    _ ≤ l.length := length_dropWhile_le' _ _

/-- When the text starts with a non-whitespace character (or is empty),
`strip` only removes a run of trailing whitespace. -/
theorem stripChars_decomp (l : List Char)
    (hhead : ∀ c t, l = c :: t → pyIsWs c = false) :
    ∃ w, l = stripChars l ++ w ∧ ∀ c ∈ w, pyIsWs c = true := by
  have hfront : l.dropWhile pyIsWs = l := by
    cases l with
    | nil => rfl
    | cons c t =>
      rw [List.dropWhile_cons, if_neg]
      simp [hhead c t rfl]
  unfold stripChars
  rw [hfront]
  refine ⟨(l.reverse.takeWhile pyIsWs).reverse, ?_, ?_⟩
  · conv_lhs => rw [← List.reverse_reverse l,
      ← List.takeWhile_append_dropWhile pyIsWs l.reverse, List.reverse_append]
  · intro c hc
    rw [List.mem_reverse] at hc
    exact List.mem_takeWhile_imp hc

theorem getElem_append_mid :
    ∀ (R z : List Char) (c : Char) (h : R.length < (R ++ c :: z).length),
      (R ++ c :: z).get ⟨R.length, h⟩ = c := by
  intro R
  induction R with
  | nil => intro z c h; rfl
  | cons x xs ih => intro z c h; exact ih z c (by simp)

/-- Stripping a truncated prefix of the collapsed text `C`: the result is
no longer than the cut position, is a prefix of `C`, and either ends
exactly at the cut or the character of `C` right after it is a space
(a stripped trailing separator). -/
theorem strip_take_boundary (C : List Char) (bp : Nat) (hbp : bp ≤ C.length)
    (hhead : ∀ c t, C = c :: t → pyIsWs c = false)
    (hws : ∀ c ∈ C, pyIsWs c = true → c = ' ') :
    (stripChars (C.take bp)).length ≤ bp ∧
    stripChars (C.take bp) <+: C ∧
    ((stripChars (C.take bp)).length = bp ∨
      ∃ h : (stripChars (C.take bp)).length < C.length,
        C.get ⟨(stripChars (C.take bp)).length, h⟩ = ' ') := by
  have hheadT : ∀ c t, C.take bp = c :: t → pyIsWs c = false := by
    intro c t h
    cases C with
    | nil => simp at h
    | cons c0 t0 =>
      cases bp with
      | zero => simp at h
      | succ bp =>
        rw [List.take_succ_cons] at h
        obtain ⟨rfl, -⟩ := List.cons.injEq .. ▸ h
        exact hhead c0 t0 rfl
  obtain ⟨w, hw, hwws⟩ := stripChars_decomp (C.take bp) hheadT
  have hTlen : (C.take bp).length = bp := List.length_take_of_le hbp
  have hRlen : (stripChars (C.take bp)).length + w.length = bp := by
    have hl := congrArg List.length hw
    rw [List.length_append] at hl
    omega
  have hCsplit : C.take bp ++ C.drop bp = C := List.take_append_drop bp C
  refine ⟨by omega, ⟨w ++ C.drop bp, ?_⟩, ?_⟩
  · rw [← List.append_assoc, ← hw, hCsplit]
  · rcases Nat.eq_or_lt_of_le (show (stripChars (C.take bp)).length ≤ bp by omega)
      with heq | hlt
    · left; exact heq
    · right
      have hlt' : (stripChars (C.take bp)).length < C.length := by omega
      refine ⟨hlt', ?_⟩
      have hwne : w ≠ [] := by
        intro h0
        rw [h0] at hRlen
        simp at hRlen
        omega
      cases w with
      | nil => exact absurd rfl hwne
      | cons wc wt =>
        have hCeq : C = stripChars (C.take bp) ++ wc :: (wt ++ C.drop bp) := by
          conv_lhs => rw [← hCsplit, hw]
          simp [List.append_assoc]
        have hmid := getElem_append_mid (stripChars (C.take bp)) (wt ++ C.drop bp) wc
          (by rw [← hCeq]; exact hlt')
        have hgoal : C.get ⟨(stripChars (C.take bp)).length, hlt'⟩ = wc := by
          rw [List.get_of_eq hCeq]
          exact hmid
        rw [hgoal]
        refine hws wc ?_ (hwws wc (List.mem_cons_self wc wt))
        rw [hCeq]
        exact List.mem_append_right _ (List.mem_cons_self wc _)

/-!  ## Claim C7 -/

/-- C7: when the whitespace-collapsed input is longer than `max_length`,
the normalizer's output fits in `max_length`; and whenever a space occurs
among the first `max_length` characters of the collapsed text, the output
is a prefix of the collapsed text whose next character is a word boundary
(`'.'` or `' '`) — i.e. truncation never splits a space-delimited word
whose boundary characters are spaces and periods. -/
theorem c7_truncation (s : List Char) (maxLen : Nat)
    (hlong : maxLen < (collapseWs s).length) :
    (clean_and_truncate_text s maxLen).length ≤ maxLen ∧
    ((∃ i, ∃ hi : i < (collapseWs s).length,
        i < maxLen ∧ (collapseWs s).get ⟨i, hi⟩ = ' ') →
      clean_and_truncate_text s maxLen <+: collapseWs s ∧
      ∃ hb : (clean_and_truncate_text s maxLen).length < (collapseWs s).length,
        ((collapseWs s).get ⟨(clean_and_truncate_text s maxLen).length, hb⟩ = '.' ∨
         (collapseWs s).get ⟨(clean_and_truncate_text s maxLen).length, hb⟩ = ' ')) := by
  have hhead : ∀ c t, collapseWs s = c :: t → pyIsWs c = false :=
    fun c t h => collapse_head_not_ws s false c t h
  have hws : ∀ c ∈ collapseWs s, pyIsWs c = true → c = ' ' := by
    intro c hc hwsc
    rcases collapseAux_mem s false false c hc with h1 | h1
    · rw [hwsc] at h1; cases h1
    · exact h1
  rw [clean_unfold]
  unfold truncateBlock
  rw [if_pos hlong]
  cases hdot : rfindIn '.' (collapseWs s) maxLen with
  | some bp =>
    dsimp only
    obtain ⟨hbpn, hbplt, hbpc⟩ := rfindIn_some_spec (collapseWs s) maxLen '.' bp hdot
    obtain ⟨hlen, hpre, hbound⟩ :=
      strip_take_boundary (collapseWs s) bp (Nat.le_of_lt hbplt) hhead hws
    refine ⟨by omega, fun _ => ⟨hpre, ?_⟩⟩
    rcases hbound with heq | ⟨hb, hspc⟩
    · refine ⟨by omega, Or.inl ?_⟩
      have hfin : (⟨(stripChars ((collapseWs s).take bp)).length, by omega⟩
            : Fin (collapseWs s).length) = ⟨bp, hbplt⟩ := Fin.ext heq
      rw [hfin]
      exact hbpc
    · exact ⟨hb, Or.inr hspc⟩
  | none =>
    dsimp only
    cases hspace : rfindIn ' ' (collapseWs s) maxLen with
    | some bp =>
      dsimp only
      obtain ⟨hbpn, hbplt, hbpc⟩ := rfindIn_some_spec (collapseWs s) maxLen ' ' bp hspace
      obtain ⟨hlen, hpre, hbound⟩ :=
        strip_take_boundary (collapseWs s) bp (Nat.le_of_lt hbplt) hhead hws
      refine ⟨by omega, fun _ => ⟨hpre, ?_⟩⟩
      rcases hbound with heq | ⟨hb, hspc⟩
      · refine ⟨by omega, Or.inr ?_⟩
        have hfin : (⟨(stripChars ((collapseWs s).take bp)).length, by omega⟩
              : Fin (collapseWs s).length) = ⟨bp, hbplt⟩ := Fin.ext heq
        rw [hfin]
        exact hbpc
      · exact ⟨hb, Or.inr hspc⟩
    | none =>
      dsimp only
      constructor
      · have h1 := stripChars_length_le ((collapseWs s).take maxLen)
        have h2 : ((collapseWs s).take maxLen).length ≤ maxLen := List.length_take_le _ _
        omega
      · rintro ⟨i, hi, hilt, hsp⟩
        exact absurd hsp (rfindIn_none_spec (collapseWs s) maxLen ' ' hspace i hi hilt)

/-- Witness for C7 on `"ab cd ef"` with `max_length = 4`: the output is
`"ab"`, of length 2 ≤ 4, a prefix of the collapsed text whose next
character is the space at index 2. -/
theorem c7_truncation_witness :
    4 < (collapseWs "ab cd ef".toList).length ∧
    ((clean_and_truncate_text "ab cd ef".toList 4).length ≤ 4 ∧
      ((∃ i, ∃ hi : i < (collapseWs "ab cd ef".toList).length,
          i < 4 ∧ (collapseWs "ab cd ef".toList).get ⟨i, hi⟩ = ' ') →
        clean_and_truncate_text "ab cd ef".toList 4 <+: collapseWs "ab cd ef".toList ∧
        ∃ hb : (clean_and_truncate_text "ab cd ef".toList 4).length
            < (collapseWs "ab cd ef".toList).length,
          ((collapseWs "ab cd ef".toList).get
              ⟨(clean_and_truncate_text "ab cd ef".toList 4).length, hb⟩ = '.' ∨
           (collapseWs "ab cd ef".toList).get
              ⟨(clean_and_truncate_text "ab cd ef".toList 4).length, hb⟩ = ' '))) :=
  ⟨by decide, c7_truncation "ab cd ef".toList 4 (by decide)⟩

end VsAutomation
